import Mathlib

/-!
Shallow embedding of the sqlrange package (sqlrange.go): struct shapes and
values as inductive trees, the tag-driven field mapper `appendFields`, the
copy-on-write field cache `Fields`, the row scanner `Scan`, the read pipeline
`QueryContext` and the write pipeline `ExecContext`, together with theorems
checking the specification's claims against these definitions.
-/

/-- Errors are carried as plain messages, mirroring Go error values. -/
structure Err where
  msg : String
deriving DecidableEq, Repr

mutual
/-- A Go type as seen by the field mapper: `int` and `str` stand for the
non-struct kinds used by the rows in this package, `strukt` is a struct
type with its ordered field list. -/
inductive Ty where
  | int : Ty
  | str : Ty
  | strukt : FieldList → Ty
deriving DecidableEq, Repr

/-- Ordered list of struct fields (declaration order). -/
inductive FieldList where
  | nil : FieldList
  | cons : StructField → FieldList → FieldList
deriving DecidableEq, Repr

/-- One struct field: exported flag, anonymous (embedded) flag, the optional
value of its `sql` tag, and its type. -/
inductive StructField where
  | mk : Bool → Bool → Option String → Ty → StructField
deriving DecidableEq, Repr
end

mutual
/-- A Go value of one of the modelled kinds. -/
inductive Value where
  | int : Int → Value
  | str : String → Value
  | strukt : ValueList → Value
deriving DecidableEq, Repr

/-- Ordered list of the field values of a struct value. -/
inductive ValueList where
  | nil : ValueList
  | cons : Value → ValueList → ValueList
deriving DecidableEq, Repr
end

/-- One entry of a FieldMap, mirroring the Go struct `field`: the column name
taken from the `sql` tag, and the `reflect.StructField.Index` sequence used
with `FieldByIndex` to reach the attribute. -/
structure Entry where
  name : String
  index : List Nat
deriving DecidableEq, Repr

/-- Number of fields in a field list (`reflect.Type.NumField`). -/
def FieldList.length : FieldList → Nat
  | .nil => 0
  | .cons _ rest => 1 + rest.length

/-- Lookup of the i-th value in a struct value's field list. -/
def ValueList.get : ValueList → Nat → Option Value
  | .nil, _ => none
  | .cons v _, 0 => some v
  | .cons _ rest, n + 1 => rest.get n

/-- Replace the i-th value in a struct value's field list. -/
def ValueList.set : ValueList → Nat → Value → ValueList
  | .nil, _, _ => .nil
  | .cons _ rest, 0, w => .cons w rest
  | .cons v rest, n + 1, w => .cons v (rest.set n w)

mutual
/-- The zero value of a type (`new(Row)` in Go): numeric zero, empty string,
and a struct of the zero values of its field types. -/
def zeroValue : Ty → Value
  | .int => .int 0
  | .str => .str ""
  | .strukt fs => .strukt (zeroValueList fs)

/-- Zero values of a field list, in declaration order. -/
def zeroValueList : FieldList → ValueList
  | .nil => .nil
  | .cons (.mk _ _ _ fty) rest => .cons (zeroValue fty) (zeroValueList rest)
end

/-- `reflect.Value.FieldByIndex`: walk an index sequence through nested struct
values. Go panics when an index is out of range or the value is not a struct;
those cases return `none` here. -/
def fieldByIndex : Value → List Nat → Option Value
  | v, [] => some v
  | .strukt vs, i :: rest =>
    match vs.get i with
    | some vi => fieldByIndex vi rest
    | none => none
  | _, _ :: _ => none

/-- Write through an index sequence: the value with the attribute at the given
path replaced. A path that does not resolve leaves the value unchanged; in Go
such a path has already panicked at `FieldByIndex` time, a crash this
embedding does not model, so theorems reading or writing through paths carry
a flat-shape hypothesis under which every recorded path resolves. -/
def updateByIndex : Value → List Nat → Value → Value
  | _, [], w => w
  | .strukt vs, i :: rest, w =>
    match vs.get i with
    | some vi => .strukt (vs.set i (updateByIndex vi rest w))
    | none => .strukt vs
  | v, _ :: _, _ => v

/-- `slices.Index`: index of the first occurrence of an element, `none` when
absent (Go returns -1). -/
def slicesIndex (xs : List String) (x : String) : Option Nat :=
  match xs with
  | [] => none
  | y :: rest =>
    if y = x then some 0
    else (slicesIndex rest x).map (· + 1)

mutual
/-- `appendFields` from sqlrange.go: walk the type's fields in declaration
order; skip unexported fields; for an exported anonymous field of struct kind
recurse into its type (note: the recursion reuses the nested type's own
`Field(i).Index`, which in reflect is relative to that nested type); for any
other exported field append an entry when it carries a `sql` tag, with the
single-index path `[i]` of `reflect.Type.Field(i)`. -/
def appendFields (fields : List Entry) : Ty → List Entry
  | .strukt fs => appendFieldsLoop fields fs 0
  | _ => fields

/-- The `for i, n := 0, t.NumField(); i < n; i++` loop body of `appendFields`,
with `i` the current field index. -/
def appendFieldsLoop (fields : List Entry) : FieldList → Nat → List Entry
  | .nil, _ => fields
  | .cons f rest, i => appendFieldsLoop (appendFieldsStep fields f i) rest (i + 1)

/-- One iteration of the `appendFields` loop for the field at index `i`. -/
def appendFieldsStep (fields : List Entry) : StructField → Nat → List Entry
  | .mk exported anonymous tag fty, i =>
    if exported then
      if anonymous then
        match fty with
        | .strukt _ => appendFields fields fty
        | _ => fields
      else
        match tag with
        | some s => fields ++ [⟨s, [i]⟩]
        | none => fields
    else fields
end

/-- The FieldMap computed for a type: what draining the `Fields` iterator
yields (the cached `appendFields(nil, t)` result). -/
def fieldsOf (t : Ty) : List Entry := appendFields [] t

/-- The process-wide cache `cachedFields`: a snapshot mapping types to their
FieldMaps. The Go value is a `map[reflect.Type][]field` behind an
`atomic.Value`; the snapshot content is modelled as an association list. -/
abbrev Cache := List (Ty × List Entry)

/-- Snapshot lookup (`cache[t]`). -/
def cacheLookup (c : Cache) (t : Ty) : Option (List Entry) :=
  match c with
  | [] => none
  | (u, fs) :: rest => if u = t then some fs else cacheLookup rest t

/-- `Fields` from sqlrange.go, as a state transformer over the cache snapshot:
on a hit the cached FieldMap is returned and the snapshot is unchanged; on a
miss the FieldMap is computed by `appendFields`, and a new snapshot holding
every binding of the old one plus the new binding is published in place of the
old one (`newCache` is freshly allocated and stored whole via
`cachedFields.Store`). The returned list is what draining the iterator yields. -/
def Fields (c : Cache) (t : Ty) : List Entry × Cache :=
  match cacheLookup c t with
  | some fs => (fs, c)
  | none =>
    let fs := appendFields [] t
    (fs, c ++ [(t, fs)])

/-- The external cursor consumed by `Scan` (`*sql.Rows`): the outcome of
`Columns()`, the successive rows (`Next`/`Scan`), each either decoding into
the given column values or failing with a conversion error, and the final
status reported by `Err()` after exhaustion. -/
structure Cursor where
  columns : Except Err (List String)
  rows : List (Except Err (List Value))
  finalErr : Option Err
deriving Repr

/-- The observable outcome of running one iteration of a `Scan` sequence: the
yielded (Row, error) pairs and how many times `rows.Close` ran. -/
structure ScanResult where
  yields : List (Value × Option Err)
  closes : Nat
deriving DecidableEq, Repr

/-- The error `database/sql` returns when a scan destination is nil, which is
what an unbound `scanArgs` slot is. -/
def unscannableErr : Err := ⟨"sql: Scan error: destination not a pointer"⟩

/-- The slot-resolution loop shared (textually duplicated, in the source) by
`Scan` and `ExecArgsFields`: one slot per listed name, initially nil; for
each FieldMap entry whose column name occurs among the names, the slot at the
name's first occurrence index receives that entry's index path. -/
def resolveSlots (names : List String) (fm : List Entry) :
    List (Option (List Nat)) :=
  fm.foldl
    (fun slots e =>
      match slicesIndex names e.name with
      | some ci => slots.set ci (some e.index)
      | none => slots)
    (List.replicate names.length none)

/-- The `scanArgs` binding pass of `Scan`: one slot per reported column,
initially nil; for each FieldMap entry whose column name occurs in the
reported columns, the slot at the first occurrence index receives the address
of the attribute at the entry's index path (modelled by the path itself).
In Go the address is taken eagerly, `val.FieldByIndex(structField.Index)
.Addr()`, which panics at this column-resolution point when a recorded path
is out of range (possible through the unextended embedded indexes); that
panic is not modelled, so theorems about `Scan` bindings assume a flat
shape, where every recorded path is in range. -/
def scanBindings (cols : List String) (fm : List Entry) : List (Option (List Nat)) :=
  resolveSlots cols fm

/-- `rows.Scan(scanArgs...)` for one cursor row: a nil slot makes the scan
fail with the unscannable-destination error; otherwise a row-level conversion
error is returned as is; otherwise each bound slot's attribute in the zeroed
row buffer receives the corresponding column value (the buffer is zero at
every decode because `Scan` runs `*row = zero` after each yield). -/
def decodeRow (t : Ty) (slots : List (Option (List Nat)))
    (rowRes : Except Err (List Value)) : Except Err Value :=
  if slots.any (·.isNone) then .error unscannableErr
  else
    match rowRes with
    | .error e => .error e
    | .ok vals =>
      .ok ((slots.zip vals).foldl
        (fun buf sv =>
          match sv.1 with
          | some path => updateByIndex buf path sv.2
          | none => buf)
        (zeroValue t))

/-- The `for rows.Next()` loop of `Scan` followed by the `rows.Err()` check:
`k n` is the consumer's answer to the n-th yield (`true` keeps iterating). -/
def scanLoop (t : Ty) (slots : List (Option (List Nat)))
    (rows : List (Except Err (List Value))) (finalErr : Option Err)
    (k : Nat → Bool) (n : Nat) : List (Value × Option Err) :=
  match rows with
  | [] =>
    match finalErr with
    | some e => [(zeroValue t, some e)]
    | none => []
  | r :: rest =>
    match decodeRow t slots r with
    | .error e => [(zeroValue t, some e)]
    | .ok v =>
      if k n then (v, none) :: scanLoop t slots rest finalErr k (n + 1)
      else [(v, none)]

/-- `Scan` from sqlrange.go, for row type `t`, run against cursor `cur` with
consumer `k`. `defer rows.Close()` runs exactly when the sequence function
returns, so every exit path of the body carries one close. -/
def Scan (t : Ty) (cur : Cursor) (k : Nat → Bool) : ScanResult :=
  match cur.columns with
  | .error e => { yields := [(zeroValue t, some e)], closes := 1 }
  | .ok cols =>
    { yields := scanLoop t (scanBindings cols (fieldsOf t)) cur.rows cur.finalErr k 0
      closes := 1 }

/-- What `QueryContext` returns: how many query submissions the call itself
performed, and the sequence it hands back (as the function from the consumer
to the run's outcome). -/
structure QueryCall where
  submits : Nat
  run : (Nat → Bool) → ScanResult

/-- `QueryContext` from sqlrange.go for row type `t`: `q.QueryContext` is
invoked once, unconditionally, before the returned sequence is built; its
outcome is `resp`. On error the returned sequence yields the zero row paired
with the submission error and stops, never touching any cursor; on success
the returned sequence is `Scan` applied to the returned cursor. -/
def QueryContext (t : Ty) (resp : Except Err Cursor) : QueryCall :=
  { submits := 1
    run :=
      match resp with
      | .error e => fun _ => { yields := [(zeroValue t, some e)], closes := 0 }
      | .ok cur => fun k => Scan t cur k }

/-- `execOptions` from sqlrange.go: the configurable argument-builder and
query-templating functions, each nil until an option sets it. -/
structure ExecOptionsV where
  argsFn : Option (List Value → Value → List Value)
  queryFn : Option (String → Value → String)

/-- `ExecOption`: a functional option mutating an `execOptions` value. -/
abbrev ExecOpt := ExecOptionsV → ExecOptionsV

/-- `ExecArgs`: option installing an argument-builder function. -/
def ExecArgs (fn : List Value → Value → List Value) : ExecOpt :=
  fun o => { o with argsFn := some fn }

/-- `ExecQuery`: option installing a query-templating function. -/
def ExecQuery (fn : String → Value → String) : ExecOpt :=
  fun o => { o with queryFn := some fn }

/-- The `structFieldIndexes` pass of `ExecArgsFields`: one slot per listed
column name, initially nil; for each FieldMap entry of the row type whose
column name occurs in the list, the slot at the name's first occurrence index
receives that entry's index path. -/
def execArgsFieldsIndexes (t : Ty) (columnNames : List String) :
    List (Option (List Nat)) :=
  resolveSlots columnNames (fieldsOf t)

/-- `ExecArgsFields` from sqlrange.go: resolve the listed column names against
the row type's FieldMap; if any slot stays nil the constructor panics
(`panic(fmt.Errorf("column %q not found", ...))`, modelled as `Except.error`);
otherwise it returns the `ExecArgs` option whose builder appends, for each
slot in listed order, `rowValue.FieldByIndex(structFieldIndex).Interface()`
of the current row. Construction itself never evaluates `FieldByIndex`, but
the returned builder does, and in Go it panics on a recorded path that is
out of range for the row (reachable through the unextended embedded
indexes); the builder modelled here skips such a path instead, so the
builder theorem assumes a flat shape and a row of the row type, under which
every recorded path resolves and no skip can occur. -/
def ExecArgsFields (t : Ty) (columnNames : List String) : Except Err ExecOpt :=
  let idxs := execArgsFieldsIndexes t columnNames
  if idxs.any (·.isNone) then .error ⟨"column not found"⟩
  else
    .ok (ExecArgs (fun args row =>
      idxs.foldl
        (fun acc oi =>
          match oi with
          | some path =>
            match fieldByIndex row path with
            | some v => acc ++ [v]
            | none => acc
          | none => acc)
        args))

/-- The default argument builder installed by `ExecContext` when no option set
one. Faithful to the source: `val` is `reflect.ValueOf(new(Row)).Elem()` —
the zero value of the row type, captured once — and the returned closure
discards its row parameter (it is `_` in the source), appending `val`'s
attribute at each FieldMap entry's index path. A recorded path that does not
resolve is skipped here but panics in Go (`FieldByIndex` out of range, again
reachable through the unextended embedded indexes); theorems about runs that
build default arguments therefore assume a flat shape, where every recorded
path resolves on `val`. -/
def defaultExecArgs (t : Ty) : List Value → Value → List Value :=
  let val := zeroValue t
  let fields := fieldsOf t
  fun args _ =>
    fields.foldl
      (fun acc e =>
        match fieldByIndex val e.index with
        | some v => acc ++ [v]
        | none => acc)
      args

/-- The observable outcome of running one iteration of an `ExecContext`
sequence: how many input elements were pulled from `seq`, the store commands
executed (query text and argument list, in order), and the yielded
(Result, error) pairs. A Result is `Option Nat`: `none` is the nil (zero)
result. -/
structure ExecRun where
  pulls : Nat
  execs : List (String × List Value)
  yields : List (Option Nat × Option Err)
deriving DecidableEq, Repr

/-- The `for r, err := range seq` loop of `ExecContext`. `store n` is the
outcome the Executable returns for the n-th command execution; `k n` is the
consumer's answer to the n-th yield. An input element carrying an error is
yielded as (nil, err) and stops the loop; otherwise the argument list is
rebuilt from an emptied buffer (`execArgs[:0]`, modelled as `[]`), the query
text is templated, the command runs, its outcome is yielded, and the loop
stops when the consumer declines or the execution returned an error. -/
def execLoop (argsFn : List Value → Value → List Value)
    (queryFn : String → Value → String) (store : Nat → Option Nat × Option Err)
    (query : String) (k : Nat → Bool) :
    List (Value × Option Err) → Nat → ExecRun
  | [], _ => ⟨0, [], []⟩
  | (_, some e) :: _, _ => ⟨1, [], [(none, some e)]⟩
  | (r, none) :: rest, n =>
    let args := argsFn [] r
    let q := queryFn query r
    let res := store n
    let tail :=
      if !k n then (⟨0, [], []⟩ : ExecRun)
      else if res.2.isSome then (⟨0, [], []⟩ : ExecRun)
      else execLoop argsFn queryFn store query k rest (n + 1)
    ⟨tail.pulls + 1, (q, args) :: tail.execs, res :: tail.yields⟩

/-- `ExecContext` from sqlrange.go for row type `t`: apply the options in call
order to a fresh `execOptions`, fill in the default argument builder and the
identity query templating function where unset, then run the input loop. -/
def ExecContext (t : Ty) (store : Nat → Option Nat × Option Err) (query : String)
    (seq : List (Value × Option Err)) (opts : List ExecOpt) (k : Nat → Bool) :
    ExecRun :=
  let options := opts.foldl (fun o f => f o) ⟨none, none⟩
  let argsFn := options.argsFn.getD (defaultExecArgs t)
  let queryFn := options.queryFn.getD (fun q _ => q)
  execLoop argsFn queryFn store query k seq 0

mutual
/-- Number of annotated attributes of a shape as the spec's testable property
counts them for the field mapper: every attribute of the shape is counted
when it is exported and carries a column-name annotation, with exported
anonymous sub-shapes of struct kind contributing their own recursively
counted attributes instead of themselves; only unexported attributes and
exported attributes lacking an annotation are excluded. -/
def claimAnnotatedCount : Ty → Nat
  | .strukt fs => claimAnnotatedCountList fs
  | _ => 0

/-- Attribute count of a field list under the spec's counting rule. -/
def claimAnnotatedCountList : FieldList → Nat
  | .nil => 0
  | .cons (.mk exported anonymous tag fty) rest =>
    (if exported then
      match anonymous, fty with
      | true, .strukt _ => claimAnnotatedCount fty
      | _, _ => if tag.isSome then 1 else 0
    else 0) + claimAnnotatedCountList rest
end

mutual
/-- Direct description of the column names the field mapper discovers for a
shape, in depth-first declaration order: an exported non-anonymous attribute
contributes its annotation when present; an exported anonymous attribute of
struct kind contributes the names of its own attributes, its annotation (if
any) ignored; exported anonymous attributes of other kinds and unexported
attributes contribute nothing. -/
def declaredColumns : Ty → List String
  | .strukt fs => declaredColumnsList fs
  | _ => []

/-- Declared column names of a field list, in declaration order. -/
def declaredColumnsList : FieldList → List String
  | .nil => []
  | .cons (.mk exported anonymous tag fty) rest =>
    (if exported then
      match anonymous, fty with
      | true, .strukt _ => declaredColumns fty
      | true, _ => []
      | false, _ =>
        match tag with
        | some s => [s]
        | none => []
    else []) ++ declaredColumnsList rest
end

/-- No field of the list is anonymous. -/
def flatFieldList : FieldList → Bool
  | .nil => true
  | .cons (.mk _ anonymous _ _) rest => !anonymous && flatFieldList rest

/-- A shape is flat when it is a struct none of whose fields is anonymous;
for flat shapes every FieldMap index path is a distinct singleton that is in
range for the shape, so `reflect` path lookups on its values cannot panic.
Shapes with embedded sub-shapes can carry out-of-range recorded paths (the
unextended-index slip in `appendFields`), on which the Go program panics in
`FieldByIndex`; that panic is outside this embedding, so the theorems about
path lookups restrict themselves to flat shapes. -/
def flatShape : Ty → Bool
  | .strukt fs => flatFieldList fs
  | _ => false

mutual
/-- A value inhabits a type: integers for `int`, strings for `str`, and
structs whose field values inhabit the corresponding field types. -/
def valueHasTy : Value → Ty → Bool
  | .int _, .int => true
  | .str _, .str => true
  | .strukt vs, .strukt fs => valueListHasTy vs fs
  | _, _ => false

/-- Field values inhabit a field list pointwise (same arity, same types). -/
def valueListHasTy : ValueList → FieldList → Bool
  | .nil, .nil => true
  | .cons v vs, .cons (.mk _ _ _ fty) rest =>
    valueHasTy v fty && valueListHasTy vs rest
  | _, _ => false
end

/-- The last FieldMap entry of a shape bearing a given column name (the entry
whose index wins a slot when several entries share the name). -/
def lastEntryNamed (t : Ty) (c : String) : Option Entry :=
  ((fieldsOf t).filter (fun e => e.name = c)).getLast?

/-- A cache snapshot is coherent when every binding holds exactly the
FieldMap that `appendFields` computes for its type. -/
def CacheWF (c : Cache) : Prop := ∀ p ∈ c, p.2 = appendFields [] p.1

/-- The row type of the package's examples and tests:
`struct { Age int sql:age; Name string sql:name }`. -/
def personTy : Ty :=
  .strukt (.cons (.mk true false (some "age") .int)
    (.cons (.mk true false (some "name") .str) .nil))

/-- An embedded sub-shape: `struct { X int sql:x }`. -/
def innerTy : Ty := .strukt (.cons (.mk true false (some "x") .int) .nil)

/-- A shape with an exported anonymous embedded sub-shape:
`struct { Y int sql:y; Inner }`. -/
def outerTy : Ty :=
  .strukt (.cons (.mk true false (some "y") .int)
    (.cons (.mk true true none innerTy) .nil))

/-- A shape whose only attribute is exported, anonymous, of non-struct kind,
and annotated: `struct { MyInt sql:v }` with `type MyInt int`. -/
def taggedAnonIntTy : Ty := .strukt (.cons (.mk true true (some "v") .int) .nil)

/-- The value `Row{Age: 19, Name: "Luke"}` of `personTy`. -/
def lukeVal : Value := .strukt (.cons (.int 19) (.cons (.str "Luke") .nil))

/-- The value of `outerTy` with `Y = 7` and embedded `X = 5`. -/
def outerVal : Value :=
  .strukt (.cons (.int 7) (.cons (.strukt (.cons (.int 5) .nil)) .nil))

/-- A sample error value. -/
def boomErr : Err := ⟨"boom"⟩

/-- C3: every run of a `Scan` sequence — normal exhaustion, early consumer
stop after any number of rows, column-enumeration error, decode error, or
trailing error — invokes the cursor's close exactly once. -/
theorem scan_closes_cursor_exactly_once (t : Ty) (cur : Cursor) (k : Nat → Bool) :
    (Scan t cur k).closes = 1 := by
  unfold Scan
  cases cur.columns <;> rfl

/-- C1: the argument list `ExecContext` builds for the input row
`Row{Age: 19, Name: "Luke"}` when no argument-builder option is configured is
the zero row's attribute values `[0, ""]`, not the current row's mapped
attribute values `[19, "Luke"]` — the default builder captures
`reflect.ValueOf(new(Row)).Elem()` and discards the row passed to it. -/
theorem execContext_default_args_built_from_zero_row :
    (ExecContext personTy (fun _ => (some 1, none)) "INSERT" [(lukeVal, none)] []
        (fun _ => true)).execs = [("INSERT", [Value.int 0, Value.str ""])] ∧
    (ExecContext personTy (fun _ => (some 1, none)) "INSERT" [(lukeVal, none)] []
        (fun _ => true)).execs ≠ [("INSERT", [Value.int 19, Value.str "Luke"])] := by
  constructor
  · rfl
  · decide

/-- C2: for the shape `Outer{Y int sql:y; Inner}` with `Inner{X int sql:x}`,
`appendFields` records the spliced entry for column `x` with the path `[0]`
relative to `Inner` instead of the extended path `[1, 0]`; on the outer value
with `Y = 7` and `X = 5`, that recorded path reaches the unrelated attribute
`Y` (value 7), while the embedded attribute `X` (value 5) lives at the
extended path. -/
theorem appendFields_embedded_path_not_extended :
    fieldsOf outerTy = [⟨"y", [0]⟩, ⟨"x", [0]⟩] ∧
    fieldByIndex outerVal [0] = some (.int 7) ∧
    fieldByIndex outerVal [1, 0] = some (.int 5) := by
  refine ⟨rfl, rfl, rfl⟩

/-- C7 counterexample: the shape whose only attribute is exported, annotated,
anonymous and of non-struct kind has one annotated attribute under the
claim's counting rule, yet `appendFields` produces no entry for it. -/
theorem fieldMapper_misses_tagged_anonymous_nonstruct :
    claimAnnotatedCount taggedAnonIntTy = 1 ∧
    (fieldsOf taggedAnonIntTy).length = 0 := by
  refine ⟨rfl, rfl⟩

/-- C9 counterexample: every name in the list `["age", "age"]` matches an
annotated field of the person shape, yet `ExecArgsFields` still panics —
only the first occurrence slot of a repeated name is ever filled. -/
theorem execArgsFields_panics_on_duplicate_listed_name :
    (∀ c ∈ ["age", "age"], c ∈ (fieldsOf personTy).map Entry.name) ∧
    (ExecArgsFields personTy ["age", "age"]).isOk = false := by
  refine ⟨by decide, rfl⟩

/-- C10 counterexample: scanning `outerTy` with reported columns `["y"]` and
one row `[5]`: the FieldMap entry for column `x` has its column unreported,
yet in the yielded row the attribute at that entry's recorded path `[0]`
holds 5, not its zero value — the entry for `y` records the same clashing
path, a consequence of the unextended embedded index. -/
theorem scan_unreported_column_attribute_clobbered_by_embedding :
    (⟨"x", [0]⟩ : Entry) ∈ fieldsOf outerTy ∧
    "x" ∉ ["y"] ∧
    (Scan outerTy ⟨.ok ["y"], [.ok [.int 5]], none⟩ (fun _ => true)).yields =
      [(.strukt (.cons (.int 5) (.cons (.strukt (.cons (.int 0) .nil)) .nil)),
        none)] ∧
    fieldByIndex
      (.strukt (.cons (.int 5) (.cons (.strukt (.cons (.int 0) .nil)) .nil)))
      [0] ≠ fieldByIndex (zeroValue outerTy) [0] := by
  refine ⟨by decide, by decide, rfl, by decide⟩

theorem slicesIndex_getElem? {xs : List String} {x : String} {j : Nat}
    (h : slicesIndex xs x = some j) : xs[j]? = some x := by
  induction xs generalizing j with
  | nil => simp [slicesIndex] at h
  | cons y rest ih =>
    by_cases hy : y = x
    · simp [slicesIndex, hy] at h
      subst h
      simp [hy]
    · simp [slicesIndex, hy] at h
      obtain ⟨m, hm, rfl⟩ := h
      simpa using ih hm

theorem slicesIndex_isSome_iff_mem {xs : List String} {x : String} :
    (slicesIndex xs x).isSome = true ↔ x ∈ xs := by
  induction xs with
  | nil => simp [slicesIndex]
  | cons y rest ih =>
    by_cases hy : y = x
    · simp [slicesIndex, hy]
    · simp [slicesIndex, hy, Option.isSome_map, ih, Ne.symm hy]

theorem slicesIndex_min {xs : List String} {x : String} {j : Nat}
    (h : slicesIndex xs x = some j) : ∀ l, l < j → xs[l]? ≠ some x := by
  induction xs generalizing j with
  | nil => intro l hl hx; simp at hx
  | cons y rest ih =>
    by_cases hy : y = x
    · simp [slicesIndex, hy] at h
      omega
    · simp [slicesIndex, hy] at h
      obtain ⟨m, hm, rfl⟩ := h
      intro l hl
      cases l with
      | zero => simpa using hy
      | succ l => simpa using ih hm l (by omega)

theorem slicesIndex_of_nodup {xs : List String} (hnd : xs.Nodup) {x : String}
    {j : Nat} (h : xs[j]? = some x) : slicesIndex xs x = some j := by
  induction xs generalizing j with
  | nil => simp at h
  | cons y rest ih =>
    rw [List.nodup_cons] at hnd
    cases j with
    | zero =>
      simp at h
      simp [slicesIndex, h]
    | succ j =>
      simp at h
      have hx : x ∈ rest := List.mem_iff_getElem?.mpr ⟨j, h⟩
      have hy : ¬y = x := fun he => hnd.1 (he ▸ hx)
      simp [slicesIndex, hy, ih hnd.2 h]

mutual
theorem appendFields_append (fields : List Entry) (t : Ty) :
    appendFields fields t = fields ++ appendFields [] t := by
  cases t with
  | strukt fs =>
    show appendFieldsLoop fields fs 0 = fields ++ appendFieldsLoop [] fs 0
    exact appendFieldsLoop_append fields fs 0
  | int => simp [appendFields]
  | str => simp [appendFields]

theorem appendFieldsLoop_append (fields : List Entry) (fs : FieldList) (i : Nat) :
    appendFieldsLoop fields fs i = fields ++ appendFieldsLoop [] fs i := by
  cases fs with
  | nil => simp [appendFieldsLoop]
  | cons f rest =>
    show appendFieldsLoop (appendFieldsStep fields f i) rest (i + 1) =
      fields ++ appendFieldsLoop (appendFieldsStep [] f i) rest (i + 1)
    rw [appendFieldsLoop_append (appendFieldsStep fields f i) rest (i + 1),
      appendFieldsLoop_append (appendFieldsStep [] f i) rest (i + 1),
      appendFieldsStep_append fields f i, List.append_assoc]

theorem appendFieldsStep_append (fields : List Entry) (f : StructField) (i : Nat) :
    appendFieldsStep fields f i = fields ++ appendFieldsStep [] f i := by
  cases f with
  | mk exported anonymous tag fty =>
    cases exported with
    | false => simp [appendFieldsStep]
    | true =>
      cases anonymous with
      | true =>
        cases fty with
        | strukt fs =>
          show appendFields fields (.strukt fs) = fields ++ appendFields [] (.strukt fs)
          exact appendFields_append fields (.strukt fs)
        | int => simp [appendFieldsStep]
        | str => simp [appendFieldsStep]
      | false =>
        cases tag with
        | some s => simp [appendFieldsStep]
        | none => simp [appendFieldsStep]
end

mutual
theorem appendFields_names (t : Ty) :
    (appendFields [] t).map Entry.name = declaredColumns t := by
  cases t with
  | strukt fs =>
    show (appendFieldsLoop [] fs 0).map Entry.name = declaredColumnsList fs
    exact appendFieldsLoop_names fs 0
  | int => rfl
  | str => rfl

theorem appendFieldsLoop_names (fs : FieldList) (i : Nat) :
    (appendFieldsLoop [] fs i).map Entry.name = declaredColumnsList fs := by
  cases fs with
  | nil => rfl
  | cons f rest =>
    show (appendFieldsLoop (appendFieldsStep [] f i) rest (i + 1)).map Entry.name =
      declaredColumnsList (.cons f rest)
    rw [appendFieldsLoop_append (appendFieldsStep [] f i) rest (i + 1),
      List.map_append, appendFieldsLoop_names rest (i + 1)]
    cases f with
    | mk exported anonymous tag fty =>
      cases exported with
      | false => simp [appendFieldsStep, declaredColumnsList]
      | true =>
        cases anonymous with
        | true =>
          cases fty with
          | strukt fs' =>
            have hrec : (appendFields [] (.strukt fs')).map Entry.name =
                declaredColumns (.strukt fs') := appendFields_names (.strukt fs')
            simp [appendFieldsStep, declaredColumnsList, hrec]
          | int => simp [appendFieldsStep, declaredColumnsList]
          | str => simp [appendFieldsStep, declaredColumnsList]
        | false =>
          cases tag with
          | some s => simp [appendFieldsStep, declaredColumnsList]
          | none => simp [appendFieldsStep, declaredColumnsList]
end

/-- C7 (amended): for every shape, the field mapper produces exactly one
entry per declared column, in depth-first declaration order: an attribute
contributes iff it is exported, non-anonymous and annotated; exported
anonymous attributes of struct kind contribute their recursively collected
entries (their own annotation ignored); exported anonymous attributes of
non-struct kind contribute nothing even when annotated; unexported
attributes are excluded. -/
theorem appendFields_collects_declared_columns_in_order (t : Ty) :
    (fieldsOf t).map Entry.name = declaredColumns t ∧
    (fieldsOf t).length = (declaredColumns t).length := by
  refine ⟨appendFields_names t, ?_⟩
  rw [← appendFields_names t, List.length_map]
  rfl

/-- C5: QueryContext performs its query submission once, at call time; when
submission fails the returned sequence yields exactly one (zero row, error)
pair and stops without any cursor being obtained or closed; when submission
succeeds the returned sequence is exactly Scan applied to the returned
cursor. -/
theorem queryContext_submits_once_then_scan_or_single_error (t : Ty)
    (resp : Except Err Cursor) :
    (QueryContext t resp).submits = 1 ∧
    (∀ e, resp = .error e →
      (QueryContext t resp).run = fun _ => ⟨[(zeroValue t, some e)], 0⟩) ∧
    (∀ cur, resp = .ok cur → (QueryContext t resp).run = fun k => Scan t cur k) := by
  refine ⟨rfl, ?_, ?_⟩
  · intro e he
    subst he
    rfl
  · intro cur hc
    subst hc
    rfl

/-- Witness for C5: run at a concrete failing submission. -/
theorem queryContext_submits_once_then_scan_or_single_error_witness :
    (QueryContext personTy (.error boomErr)).run (fun _ => true) =
      ⟨[(zeroValue personTy, some boomErr)], 0⟩ := by
  have h := (queryContext_submits_once_then_scan_or_single_error personTy
    (.error boomErr)).2.1 boomErr rfl
  exact congrFun h (fun _ => true)

theorem cacheLookup_mem {c : Cache} {t : Ty} {fs : List Entry}
    (h : cacheLookup c t = some fs) : (t, fs) ∈ c := by
  induction c with
  | nil => simp [cacheLookup] at h
  | cons p rest ih =>
    obtain ⟨u, gs⟩ := p
    by_cases hu : u = t
    · subst hu
      simp [cacheLookup] at h
      subst h
      exact List.mem_cons_self _ _
    · simp [cacheLookup, hu] at h
      exact List.mem_cons_of_mem _ (ih h)

/-- C8: a Fields lookup returns the FieldMap a fresh `appendFields`
computation produces, on hits and on misses alike (given a coherent
snapshot); on a miss the published snapshot is the old snapshot plus the one
new binding, every previous binding surviving unchanged, and on a hit the
snapshot is unchanged. -/
theorem fields_cache_lookup_coherent_and_copy_on_write (c : Cache) (t : Ty)
    (hwf : CacheWF c) :
    (Fields c t).1 = appendFields [] t ∧
    CacheWF (Fields c t).2 ∧
    (∀ p ∈ c, p ∈ (Fields c t).2) ∧
    ((cacheLookup c t).isSome = true → (Fields c t).2 = c) ∧
    (cacheLookup c t = none → (Fields c t).2 = c ++ [(t, appendFields [] t)]) := by
  cases h : cacheLookup c t with
  | some fs =>
    have hm := cacheLookup_mem h
    have heq := hwf _ hm
    have hF : Fields c t = (fs, c) := by simp [Fields, h]
    rw [hF]
    refine ⟨heq, hwf, fun p hp => hp, fun _ => rfl, ?_⟩
    intro hn
    simp at hn
  | none =>
    have hF : Fields c t = (appendFields [] t, c ++ [(t, appendFields [] t)]) := by
      simp [Fields, h]
    rw [hF]
    refine ⟨rfl, ?_, fun p hp => List.mem_append_left _ hp, ?_, fun _ => rfl⟩
    · intro p hp
      rcases List.mem_append.mp hp with hold | hnew
      · exact hwf _ hold
      · obtain ⟨p1, p2⟩ := p
        simp at hnew
        rw [hnew.2, hnew.1]
    · intro hs
      simp at hs

/-- Witness for C8: lookup of the person shape in the empty snapshot. -/
theorem fields_cache_lookup_coherent_and_copy_on_write_witness :
    (Fields [] personTy).1 = appendFields [] personTy ∧
    (Fields [] personTy).2 = [] ++ [(personTy, appendFields [] personTy)] := by
  have h := fields_cache_lookup_coherent_and_copy_on_write [] personTy
    (fun p hp => absurd hp (List.not_mem_nil p))
  exact ⟨h.1, h.2.2.2.2 rfl⟩

theorem resolveSlots_foldl_length (names : List String) (fm : List Entry)
    (init : List (Option (List Nat))) :
    (fm.foldl
      (fun slots e =>
        match slicesIndex names e.name with
        | some ci => slots.set ci (some e.index)
        | none => slots) init).length = init.length := by
  induction fm generalizing init with
  | nil => rfl
  | cons e fm ih =>
    rw [List.foldl_cons, ih]
    cases h : slicesIndex names e.name <;> simp [h]

theorem resolveSlots_length (names : List String) (fm : List Entry) :
    (resolveSlots names fm).length = names.length := by
  unfold resolveSlots
  rw [resolveSlots_foldl_length]
  simp

theorem resolveSlots_foldl_getElem? (names : List String) (fm : List Entry)
    (init : List (Option (List Nat))) (hlen : init.length = names.length)
    (i : Nat) :
    (fm.foldl
      (fun slots e =>
        match slicesIndex names e.name with
        | some ci => slots.set ci (some e.index)
        | none => slots) init)[i]? =
      ((fm.filter (fun e => slicesIndex names e.name == some i)).getLast?).elim
        init[i]? (fun e => some (some e.index)) := by
  induction fm generalizing init with
  | nil => simp
  | cons e fm ih =>
    rw [List.foldl_cons, List.filter_cons]
    cases h : slicesIndex names e.name with
    | none =>
      simp only [h]
      rw [if_neg (by simp [h])]
      exact ih init hlen
    | some ci =>
      have hci := slicesIndex_getElem? h
      obtain ⟨hlt, -⟩ := List.getElem?_eq_some.mp hci
      simp only [h]
      by_cases hcii : ci = i
      · subst hcii
        rw [if_pos (by simp [h])]
        rw [ih (init.set ci (some e.index)) (by simp [hlen])]
        rw [List.getLast?_cons]
        cases hl : (List.filter (fun e => slicesIndex names e.name == some ci) fm).getLast? with
        | some e2 => simp [hl]
        | none =>
          simp only [hl, Option.elim, Option.getD]
          rw [List.getElem?_set_eq_of_lt _ (by omega)]
      · rw [if_neg (by simp [h, hcii])]
        rw [ih (init.set ci (some e.index)) (by simp [hlen])]
        cases hl : (List.filter (fun e => slicesIndex names e.name == some i) fm).getLast? with
        | some e2 => simp [hl]
        | none =>
          simp only [hl, Option.elim]
          rw [List.getElem?_set_ne hcii]

theorem resolveSlots_getElem?_unbound (names : List String) (fm : List Entry)
    (i : Nat) (hi : i < names.length)
    (h : ∀ e ∈ fm, slicesIndex names e.name ≠ some i) :
    (resolveSlots names fm)[i]? = some none := by
  unfold resolveSlots
  rw [resolveSlots_foldl_getElem? names fm _ (by simp) i]
  have hfil : fm.filter (fun e => slicesIndex names e.name == some i) = [] :=
    List.filter_eq_nil_iff.mpr (fun e he => by simp [h e he])
  rw [hfil]
  simp [List.getElem?_replicate, hi]

theorem resolveSlots_any_isNone_of_unmapped {names : List String}
    {fm : List Entry} {c : String} (hc : c ∈ names)
    (hnm : c ∉ fm.map Entry.name) :
    (resolveSlots names fm).any (fun o => o.isNone) = true := by
  obtain ⟨j, hj⟩ : ∃ j, slicesIndex names c = some j :=
    Option.isSome_iff_exists.mp (slicesIndex_isSome_iff_mem.mpr hc)
  have hjc := slicesIndex_getElem? hj
  obtain ⟨hjlt, -⟩ := List.getElem?_eq_some.mp hjc
  have hslot : (resolveSlots names fm)[j]? = some none := by
    apply resolveSlots_getElem?_unbound names fm j hjlt
    intro e he hcontra
    have hje := slicesIndex_getElem? hcontra
    rw [hje] at hjc
    injection hjc with hname
    exact hnm (List.mem_map.mpr ⟨e, he, hname⟩)
  exact List.any_eq_true.mpr ⟨none, List.mem_iff_getElem?.mpr ⟨j, hslot⟩, rfl⟩

/-- C6: for a flat shape (where every recorded path is in range, so Go's
bind-time address taking cannot panic), when the cursor reports a column for
which the target shape's FieldMap has no entry, the corresponding scan slot
stays unbound, so decoding the first row yields the unscannable-destination
error paired with the zero row and the sequence stops; with no rows at all
no such error is raised, so the error surfaces on the first affected row and
not at column-enumeration time. -/
theorem scan_unmapped_column_errors_on_first_row (t : Ty) (cols : List String)
    (c : String) (vals : List Value) (rest : List (Except Err (List Value)))
    (fe : Option Err) (k : Nat → Bool) (_hflat : flatShape t = true)
    (hc : c ∈ cols) (hnm : c ∉ (fieldsOf t).map Entry.name) :
    (Scan t ⟨.ok cols, .ok vals :: rest, fe⟩ k).yields =
      [(zeroValue t, some unscannableErr)] ∧
    (Scan t ⟨.ok cols, [], none⟩ k).yields = [] := by
  have hany : (scanBindings cols (fieldsOf t)).any (fun o => o.isNone) = true :=
    resolveSlots_any_isNone_of_unmapped hc hnm
  constructor
  · simp [Scan, scanLoop, decodeRow, hany]
  · simp [Scan, scanLoop]

/-- Witness for C6: person shape against columns `age, name, unmapped`. -/
theorem scan_unmapped_column_errors_on_first_row_witness :
    (Scan personTy
        ⟨.ok ["age", "name", "unmapped"],
          [.ok [.int 1, .str "Alice", .int 9]], none⟩ (fun _ => true)).yields =
      [(zeroValue personTy, some unscannableErr)] :=
  (scan_unmapped_column_errors_on_first_row personTy ["age", "name", "unmapped"]
    "unmapped" [.int 1, .str "Alice", .int 9] [] none (fun _ => true)
    (by decide) (by decide) (by decide)).1

theorem execLoop_input_error (argsFn : List Value → Value → List Value)
    (queryFn : String → Value → String) (store : Nat → Option Nat × Option Err)
    (query : String) (k : Nat → Bool) (pre : List (Value × Option Err))
    (r : Value) (e : Err) (rest : List (Value × Option Err)) (n : Nat)
    (hclean : ∀ x ∈ pre, x.2 = none)
    (hk : ∀ m < pre.length, k (n + m) = true)
    (hstore : ∀ m < pre.length, (store (n + m)).2 = none) :
    ∃ ys,
      (execLoop argsFn queryFn store query k (pre ++ (r, some e) :: rest) n).yields
        = ys ++ [(none, some e)] ∧
      ys.length = pre.length ∧
      (execLoop argsFn queryFn store query k (pre ++ (r, some e) :: rest) n).execs.length
        = pre.length ∧
      (execLoop argsFn queryFn store query k (pre ++ (r, some e) :: rest) n).pulls
        = pre.length + 1 := by
  induction pre generalizing n with
  | nil => exact ⟨[], rfl, rfl, rfl, rfl⟩
  | cons x pre ih =>
    obtain ⟨xv, xe⟩ := x
    have hxe : xe = none := hclean (xv, xe) (List.mem_cons_self _ _)
    subst hxe
    have hk0 : k n = true := by simpa using hk 0 (by simp)
    have hs0 : (store n).2 = none := by simpa using hstore 0 (by simp)
    obtain ⟨ys, hy, hyl, hex, hp⟩ := ih (n + 1)
      (fun z hz => hclean z (List.mem_cons_of_mem _ hz))
      (fun m hm => by
        have h1 := hk (m + 1) (by simp only [List.length_cons]; omega)
        have h2 : n + (m + 1) = n + 1 + m := by omega
        rwa [h2] at h1)
      (fun m hm => by
        have h1 := hstore (m + 1) (by simp only [List.length_cons]; omega)
        have h2 : n + (m + 1) = n + 1 + m := by omega
        rwa [h2] at h1)
    refine ⟨store n :: ys, ?_, ?_, ?_, ?_⟩ <;>
      simp [execLoop, hk0, hs0, hy, hyl, hex, hp]

/-- C4: for a flat row shape (where the default argument builder's path
lookups are all in range, so Go cannot panic while building arguments), when
the input sequence's first k-1 elements carry no error and its k-th element
carries error e, an ExecContext run (whose consumer keeps pulling and whose
store reports no execution error over those k-1 steps) performs exactly k-1
store executions, yields k pairs of which the last is the zero (nil) Result
paired with e, and pulls exactly k input elements — nothing further is
pulled or yielded. -/
theorem execContext_input_error_short_circuit (t : Ty)
    (store : Nat → Option Nat × Option Err) (query : String)
    (pre : List (Value × Option Err)) (r : Value) (e : Err)
    (rest : List (Value × Option Err)) (opts : List ExecOpt) (k : Nat → Bool)
    (_hflat : flatShape t = true)
    (hclean : ∀ x ∈ pre, x.2 = none)
    (hk : ∀ m < pre.length, k m = true)
    (hstore : ∀ m < pre.length, (store m).2 = none) :
    ∃ ys,
      (ExecContext t store query (pre ++ (r, some e) :: rest) opts k).yields
        = ys ++ [(none, some e)] ∧
      ys.length = pre.length ∧
      (ExecContext t store query (pre ++ (r, some e) :: rest) opts k).execs.length
        = pre.length ∧
      (ExecContext t store query (pre ++ (r, some e) :: rest) opts k).pulls
        = pre.length + 1 := by
  have h := execLoop_input_error
    ((opts.foldl (fun o f => f o) (⟨none, none⟩ : ExecOptionsV)).argsFn.getD
      (defaultExecArgs t))
    ((opts.foldl (fun o f => f o) (⟨none, none⟩ : ExecOptionsV)).queryFn.getD
      (fun q _ => q))
    store query k pre r e rest 0 hclean
    (fun m hm => by simpa using hk m hm)
    (fun m hm => by simpa using hstore m hm)
  simpa [ExecContext] using h

/-- Witness for C4: one clean input element, then an error element. -/
theorem execContext_input_error_short_circuit_witness :
    ∃ ys,
      (ExecContext personTy (fun _ => (some 1, none)) "INSERT"
          ([(lukeVal, none)] ++ (lukeVal, some boomErr) :: []) [] (fun _ => true)).yields
        = ys ++ [(none, some boomErr)] ∧
      ys.length = 1 ∧
      (ExecContext personTy (fun _ => (some 1, none)) "INSERT"
          ([(lukeVal, none)] ++ (lukeVal, some boomErr) :: []) [] (fun _ => true)).execs.length
        = 1 ∧
      (ExecContext personTy (fun _ => (some 1, none)) "INSERT"
          ([(lukeVal, none)] ++ (lukeVal, some boomErr) :: []) [] (fun _ => true)).pulls
        = 1 + 1 := by
  have h := execContext_input_error_short_circuit personTy (fun _ => (some 1, none))
    "INSERT" [(lukeVal, none)] lukeVal boomErr [] [] (fun _ => true)
    (by decide) (by decide) (by decide) (by decide)
  simpa using h

theorem scanLoop_ok_yield {t : Ty} {slots : List (Option (List Nat))}
    {rows : List (Except Err (List Value))} {fe : Option Err} {k : Nat → Bool}
    {n : Nat} {v : Value}
    (h : (v, none) ∈ scanLoop t slots rows fe k n) :
    ∃ r ∈ rows, decodeRow t slots r = .ok v := by
  induction rows generalizing n with
  | nil =>
    cases fe with
    | some e => simp [scanLoop] at h
    | none => simp [scanLoop] at h
  | cons r rest ih =>
    cases hd : decodeRow t slots r with
    | error e => simp [scanLoop, hd] at h
    | ok w =>
      simp only [scanLoop, hd] at h
      by_cases hk : k n = true
      · rw [if_pos hk] at h
        rcases List.mem_cons.mp h with h1 | h2
        · obtain ⟨rfl, -⟩ := Prod.mk.injEq .. |>.mp h1
          exact ⟨r, List.mem_cons_self _ _, hd⟩
        · obtain ⟨r', hr', hdr⟩ := ih h2
          exact ⟨r', List.mem_cons_of_mem _ hr', hdr⟩
      · rw [if_neg hk] at h
        rcases List.mem_singleton.mp h with h1
        obtain ⟨rfl, -⟩ := Prod.mk.injEq .. |>.mp h1
        exact ⟨r, List.mem_cons_self _ _, hd⟩

theorem ValueList.get_set_ne : ∀ (vs : ValueList) {i j : Nat}, j ≠ i →
    ∀ (w : Value), (vs.set j w).get i = vs.get i
  | .nil, _, _, _, _ => rfl
  | .cons _ _, 0, 0, h, _ => absurd rfl h
  | .cons _ _, 0, _ + 1, _, _ => rfl
  | .cons _ _, _ + 1, 0, _, _ => rfl
  | .cons _ rest, i + 1, j + 1, h, w =>
    get_set_ne rest (fun he => h (congrArg Nat.succ he)) w

theorem fieldByIndex_update_head_ne (v : Value) (j : Nat) (tl : List Nat)
    (w : Value) (i : Nat) (h : j ≠ i) :
    fieldByIndex (updateByIndex v (j :: tl) w) [i] = fieldByIndex v [i] := by
  cases v with
  | strukt vs =>
    simp only [updateByIndex]
    cases hg : vs.get j with
    | some vj =>
      simp only [fieldByIndex]
      rw [ValueList.get_set_ne vs h]
    | none => rfl
  | int n => rfl
  | str s => rfl

theorem foldl_update_lookup_ne (l : List (Option (List Nat) × Value))
    (buf : Value) (i : Nat)
    (h : ∀ sv ∈ l, ∀ p, sv.1 = some p → ∃ j tl, p = j :: tl ∧ j ≠ i) :
    fieldByIndex
      (l.foldl
        (fun b sv =>
          match sv.1 with
          | some path => updateByIndex b path sv.2
          | none => b) buf) [i] = fieldByIndex buf [i] := by
  induction l generalizing buf with
  | nil => rfl
  | cons sv l ih =>
    rw [List.foldl_cons]
    rw [ih _ (fun z hz => h z (List.mem_cons_of_mem _ hz))]
    cases hs : sv.1 with
    | none => simp [hs]
    | some p =>
      obtain ⟨j, tl, rfl, hji⟩ := h sv (List.mem_cons_self _ _) p hs
      simp only [hs]
      exact fieldByIndex_update_head_ne buf j tl sv.2 i hji

theorem resolveSlots_foldl_mem_some (names : List String) (fm : List Entry)
    (init : List (Option (List Nat))) {p : List Nat}
    (h : some p ∈ fm.foldl
      (fun slots e =>
        match slicesIndex names e.name with
        | some ci => slots.set ci (some e.index)
        | none => slots) init) :
    some p ∈ init ∨
      ∃ e ∈ fm, p = e.index ∧ (slicesIndex names e.name).isSome = true := by
  induction fm generalizing init with
  | nil => exact Or.inl h
  | cons e fm ih =>
    rw [List.foldl_cons] at h
    rcases ih _ h with hin | ⟨e', he', hp, hs⟩
    · cases hse : slicesIndex names e.name with
      | none =>
        rw [hse] at hin
        exact Or.inl hin
      | some ci =>
        rw [hse] at hin
        rcases List.mem_or_eq_of_mem_set hin with h1 | h2
        · exact Or.inl h1
        · injection h2 with h3
          exact Or.inr ⟨e, List.mem_cons_self _ _, h3, by simp [hse]⟩
    · exact Or.inr ⟨e', List.mem_cons_of_mem _ he', hp, hs⟩

theorem resolveSlots_mem_some {names : List String} {fm : List Entry}
    {p : List Nat} (h : some p ∈ resolveSlots names fm) :
    ∃ e ∈ fm, p = e.index ∧ e.name ∈ names := by
  rcases resolveSlots_foldl_mem_some names fm _ h with hin | ⟨e, he, hp, hs⟩
  · exact absurd (List.eq_of_mem_replicate hin) (by simp)
  · exact ⟨e, he, hp, slicesIndex_isSome_iff_mem.mp hs⟩

theorem flat_loop_entry_singleton : ∀ {fs : FieldList},
    flatFieldList fs = true → ∀ {i0 : Nat} {e : Entry},
    e ∈ appendFieldsLoop [] fs i0 → ∃ j, i0 ≤ j ∧ e.index = [j]
  | .nil, _, i0, e, he => by simp [appendFieldsLoop] at he
  | .cons (.mk exported anonymous tag fty) rest, hf, i0, e, he => by
    rw [flatFieldList, Bool.and_eq_true, Bool.not_eq_true'] at hf
    obtain ⟨hanon, hrest⟩ := hf
    subst hanon
    have he2 : e ∈ appendFieldsLoop
        (appendFieldsStep [] (.mk exported false tag fty) i0) rest (i0 + 1) := he
    rw [appendFieldsLoop_append] at he2
    rcases List.mem_append.mp he2 with h1 | h2
    · cases exported with
      | false => simp [appendFieldsStep] at h1
      | true =>
        cases tag with
        | some s =>
          simp [appendFieldsStep] at h1
          exact ⟨i0, le_refl i0, by rw [h1]⟩
        | none => simp [appendFieldsStep] at h1
    · obtain ⟨j, hj, hi⟩ := flat_loop_entry_singleton hrest h2
      exact ⟨j, by omega, hi⟩

theorem flat_loop_index_nodup : ∀ {fs : FieldList},
    flatFieldList fs = true → ∀ (i0 : Nat),
    ((appendFieldsLoop [] fs i0).map Entry.index).Nodup
  | .nil, _, i0 => by simp [appendFieldsLoop]
  | .cons (.mk exported anonymous tag fty) rest, hf, i0 => by
    rw [flatFieldList, Bool.and_eq_true, Bool.not_eq_true'] at hf
    obtain ⟨hanon, hrest⟩ := hf
    subst hanon
    show ((appendFieldsLoop (appendFieldsStep [] (.mk exported false tag fty) i0)
      rest (i0 + 1)).map Entry.index).Nodup
    rw [appendFieldsLoop_append, List.map_append]
    apply List.Nodup.append
    · cases exported with
      | false => simp [appendFieldsStep]
      | true =>
        cases tag with
        | some s => simp [appendFieldsStep]
        | none => simp [appendFieldsStep]
    · exact flat_loop_index_nodup hrest (i0 + 1)
    · intro x hx1 hx2
      obtain ⟨e1, he1, hxe1⟩ := List.mem_map.mp hx1
      obtain ⟨e2, he2, hxe2⟩ := List.mem_map.mp hx2
      obtain ⟨j, hj, hij⟩ := flat_loop_entry_singleton hrest he2
      cases exported with
      | false => simp [appendFieldsStep] at he1
      | true =>
        cases tag with
        | some s =>
          simp [appendFieldsStep] at he1
          rw [he1] at hxe1
          rw [← hxe1] at hxe2
          rw [hij] at hxe2
          injection hxe2.symm with hji
          omega
        | none => simp [appendFieldsStep] at he1

theorem flat_fieldsOf_singleton {t : Ty} (hf : flatShape t = true) {e : Entry}
    (he : e ∈ fieldsOf t) : ∃ j, e.index = [j] := by
  cases t with
  | strukt fs =>
    obtain ⟨j, -, hj⟩ := @flat_loop_entry_singleton fs (by exact hf) 0 e he
    exact ⟨j, hj⟩
  | int => simp [flatShape] at hf
  | str => simp [flatShape] at hf

theorem flat_fieldsOf_index_inj {t : Ty} (hf : flatShape t = true) {e1 e2 : Entry}
    (h1 : e1 ∈ fieldsOf t) (h2 : e2 ∈ fieldsOf t)
    (heq : e1.index = e2.index) : e1 = e2 := by
  cases t with
  | strukt fs =>
    exact List.inj_on_of_nodup_map (flat_loop_index_nodup (by exact hf) 0) h1 h2 heq
  | int => simp [flatShape] at hf
  | str => simp [flatShape] at hf

/-- C10 (amended): for a flat shape (a struct with no anonymous attributes —
the case in which FieldMap paths identify attributes uniquely), every
FieldMap entry whose column name is not among the cursor's reported columns
gets no scan binding and causes no error: in every successfully yielded row
the attribute at that entry's path still holds its zero value. -/
theorem scan_unreported_column_attribute_stays_zero (t : Ty) (cur : Cursor)
    (k : Nat → Bool) (cols : List String) (e : Entry) (v : Value)
    (hf : flatShape t = true)
    (hcols : cur.columns = .ok cols)
    (he : e ∈ fieldsOf t)
    (hnm : e.name ∉ cols)
    (hv : (v, none) ∈ (Scan t cur k).yields) :
    fieldByIndex v e.index = fieldByIndex (zeroValue t) e.index := by
  have hyields : (Scan t cur k).yields =
      scanLoop t (scanBindings cols (fieldsOf t)) cur.rows cur.finalErr k 0 := by
    simp [Scan, hcols]
  rw [hyields] at hv
  obtain ⟨r, hr, hdec⟩ := scanLoop_ok_yield hv
  unfold decodeRow at hdec
  by_cases hany : (scanBindings cols (fieldsOf t)).any (fun o => o.isNone) = true
  · rw [if_pos hany] at hdec
    simp at hdec
  · rw [if_neg hany] at hdec
    cases r with
    | error e' => simp at hdec
    | ok vals =>
      injection hdec with hfold
      obtain ⟨j, hj⟩ := flat_fieldsOf_singleton hf he
      rw [hj, ← hfold]
      apply foldl_update_lookup_ne
      intro sv hsv p hp
      have hsl : some p ∈ scanBindings cols (fieldsOf t) := by
        have hmem := (List.of_mem_zip hsv).1
        rwa [hp] at hmem
      simp only [scanBindings] at hsl
      obtain ⟨e', he', hpe, hename⟩ := resolveSlots_mem_some hsl
      have hne : e' ≠ e := fun heq => hnm (heq ▸ hename)
      obtain ⟨j', hj'⟩ := flat_fieldsOf_singleton hf he'
      refine ⟨j', [], by rw [hpe, hj'], ?_⟩
      intro hji
      apply hne
      apply flat_fieldsOf_index_inj hf he' he
      rw [hj', hj, hji]

/-- Witness for C10: person shape scanned with only column `age` reported;
the `name` attribute of the yielded row keeps its zero value. -/
theorem scan_unreported_column_attribute_stays_zero_witness :
    fieldByIndex (.strukt (.cons (.int 1) (.cons (.str "") .nil))) [1] =
      fieldByIndex (zeroValue personTy) [1] :=
  scan_unreported_column_attribute_stays_zero personTy
    ⟨.ok ["age"], [.ok [.int 1]], none⟩ (fun _ => true) ["age"] ⟨"name", [1]⟩
    (.strukt (.cons (.int 1) (.cons (.str "") .nil)))
    (by decide) rfl (by decide) (by decide) (by decide)

theorem valueListHasTy_get_isSome : ∀ {vs : ValueList} {fs : FieldList},
    valueListHasTy vs fs = true → ∀ {j : Nat}, j < fs.length →
    (vs.get j).isSome = true
  | .nil, .nil, _, j, hj => by simp [FieldList.length] at hj
  | .nil, .cons f rest, h, j, hj => by simp [valueListHasTy] at h
  | .cons v vs, .nil, _, j, hj => by simp [FieldList.length] at hj
  | .cons v vs, .cons (.mk ex an tg fty) rest, h, 0, hj => rfl
  | .cons v vs, .cons (.mk ex an tg fty) rest, h, j + 1, hj => by
    rw [valueListHasTy, Bool.and_eq_true] at h
    exact valueListHasTy_get_isSome h.2
      (by rw [FieldList.length] at hj; omega)

theorem flat_loop_entry_lt : ∀ {fs : FieldList},
    flatFieldList fs = true → ∀ {i0 : Nat} {e : Entry},
    e ∈ appendFieldsLoop [] fs i0 →
    ∃ j, i0 ≤ j ∧ j < i0 + fs.length ∧ e.index = [j]
  | .nil, _, i0, e, he => by simp [appendFieldsLoop] at he
  | .cons (.mk exported anonymous tag fty) rest, hf, i0, e, he => by
    rw [flatFieldList, Bool.and_eq_true, Bool.not_eq_true'] at hf
    obtain ⟨hanon, hrest⟩ := hf
    subst hanon
    have he2 : e ∈ appendFieldsLoop
        (appendFieldsStep [] (.mk exported false tag fty) i0) rest (i0 + 1) := he
    rw [appendFieldsLoop_append] at he2
    rcases List.mem_append.mp he2 with h1 | h2
    · cases exported with
      | false => simp [appendFieldsStep] at h1
      | true =>
        cases tag with
        | some s =>
          simp [appendFieldsStep] at h1
          exact ⟨i0, le_refl i0, by rw [FieldList.length]; omega, by rw [h1]⟩
        | none => simp [appendFieldsStep] at h1
    · obtain ⟨j, hj1, hj2, hj3⟩ := flat_loop_entry_lt hrest h2
      exact ⟨j, by omega, by rw [FieldList.length]; omega, hj3⟩

theorem flat_fieldByIndex_isSome {t : Ty} (hf : flatShape t = true) {e : Entry}
    (he : e ∈ fieldsOf t) {row : Value} (hrow : valueHasTy row t = true) :
    (fieldByIndex row e.index).isSome = true := by
  cases t with
  | int => simp [flatShape] at hf
  | str => simp [flatShape] at hf
  | strukt fs =>
    obtain ⟨j, -, hlt, hj⟩ := @flat_loop_entry_lt fs (by exact hf) 0 e he
    cases row with
    | int n => simp [valueHasTy] at hrow
    | str sv => simp [valueHasTy] at hrow
    | strukt vs =>
      have hvt : valueListHasTy vs fs = true := hrow
      rw [hj]
      have hjlen : j < fs.length := by omega
      obtain ⟨vi, hvi⟩ :=
        Option.isSome_iff_exists.mp (valueListHasTy_get_isSome hvt hjlen)
      simp [fieldByIndex, hvi]

theorem lastEntryNamed_mem {t : Ty} {c : String}
    (hc : c ∈ (fieldsOf t).map Entry.name) :
    ∃ e, lastEntryNamed t c = some e ∧ e ∈ fieldsOf t := by
  obtain ⟨e, he, hce⟩ := List.mem_map.mp hc
  have hef : e ∈ (fieldsOf t).filter (fun x => x.name = c) :=
    List.mem_filter.mpr ⟨he, by simp [hce]⟩
  have hne : (fieldsOf t).filter (fun x => x.name = c) ≠ [] := by
    intro h0
    rw [h0] at hef
    cases hef
  obtain ⟨e2, he2⟩ := Option.isSome_iff_exists.mp (List.getLast?_isSome.mpr hne)
  exact ⟨e2, he2, List.mem_of_mem_filter (List.mem_of_mem_getLast? he2)⟩

theorem resolveSlots_getElem?_of_nodup {cols : List String} (hnd : cols.Nodup)
    (fm : List Entry) {i : Nat} {c : String} (hc : cols[i]? = some c) :
    (resolveSlots cols fm)[i]? =
      some (((fm.filter (fun e => e.name = c)).getLast?).map Entry.index) := by
  unfold resolveSlots
  rw [resolveSlots_foldl_getElem? cols fm _ (by simp) i]
  have hfc : fm.filter (fun e => slicesIndex cols e.name == some i) =
      fm.filter (fun e => e.name = c) := List.filter_congr (fun e he => ?_)
  rotate_left
  · by_cases hec : e.name = c
    · simp [hec, slicesIndex_of_nodup hnd hc]
    · show (slicesIndex cols e.name == some i) = decide (e.name = c)
      have hdec : decide (e.name = c) = false := by simp [hec]
      rw [hdec, beq_eq_false_iff_ne]
      intro hcontra
      have hgc := slicesIndex_getElem? hcontra
      rw [hgc] at hc
      injection hc with hc2
      exact hec hc2
  rw [hfc]
  obtain ⟨hlt, -⟩ := List.getElem?_eq_some.mp hc
  cases hl : (fm.filter (fun e => decide (e.name = c))).getLast? with
  | some e2 => simp [hl]
  | none => simp [hl, List.getElem?_replicate, hlt]

theorem execArgsFields_isOk_iff_not_any (t : Ty) (cols : List String) :
    (ExecArgsFields t cols).isOk = true ↔
      (execArgsFieldsIndexes t cols).any (fun o => o.isNone) = false := by
  unfold ExecArgsFields
  cases h : (execArgsFieldsIndexes t cols).any (fun o => o.isNone) <;>
    simp [h, Except.isOk, Except.toBool]

theorem execArgsFieldsIndexes_none_unmatched {t : Ty} {cols : List String}
    (hnd : cols.Nodup) {i : Nat}
    (h : (execArgsFieldsIndexes t cols)[i]? = some none) :
    ∃ c ∈ cols, c ∉ (fieldsOf t).map Entry.name := by
  have hres : execArgsFieldsIndexes t cols = resolveSlots cols (fieldsOf t) := rfl
  have hlen : i < cols.length := by
    by_contra hge
    have hle : (execArgsFieldsIndexes t cols).length ≤ i := by
      rw [hres, resolveSlots_length]
      omega
    rw [List.getElem?_eq_none hle] at h
    cases h
  obtain ⟨c, hc⟩ : ∃ c, cols[i]? = some c := ⟨cols[i], by simp [hlen]⟩
  rw [hres, resolveSlots_getElem?_of_nodup hnd (fieldsOf t) hc] at h
  injection h with h2
  rw [Option.map_eq_none'] at h2
  rw [List.getLast?_eq_none_iff] at h2
  refine ⟨c, List.mem_iff_getElem?.mpr ⟨i, hc⟩, ?_⟩
  intro hcm
  obtain ⟨e, he, hce⟩ := List.mem_map.mp hcm
  have hef : e ∈ (fieldsOf t).filter (fun e => e.name = c) :=
    List.mem_filter.mpr ⟨he, by simp [hce]⟩
  rw [h2] at hef
  cases hef

theorem execArgsFields_not_ok_of_dup {t : Ty} {cols : List String}
    (h : ¬ cols.Nodup) : (ExecArgsFields t cols).isOk = false := by
  rw [List.nodup_iff_getElem?_ne_getElem?] at h
  push_neg at h
  obtain ⟨i, j, hij, hjlen, hdup⟩ := h
  obtain ⟨c, hcj⟩ : ∃ c, cols[j]? = some c := ⟨cols[j], by simp [hjlen]⟩
  have hci : cols[i]? = some c := by rw [hdup, hcj]
  have hslot : (resolveSlots cols (fieldsOf t))[j]? = some none := by
    apply resolveSlots_getElem?_unbound cols (fieldsOf t) j hjlen
    intro e he hcontra
    have hge := slicesIndex_getElem? hcontra
    rw [hcj] at hge
    injection hge with hge2
    subst hge2
    exact slicesIndex_min hcontra i hij hci
  have hany : (execArgsFieldsIndexes t cols).any (fun o => o.isNone) = true :=
    List.any_eq_true.mpr ⟨none, List.mem_iff_getElem?.mpr ⟨j, hslot⟩, rfl⟩
  cases hok : (ExecArgsFields t cols).isOk with
  | false => rfl
  | true =>
    rw [execArgsFields_isOk_iff_not_any] at hok
    rw [hok] at hany
    cases hany

theorem foldl_append_filterMap (idxs : List (Option (List Nat))) (row : Value)
    (args : List Value) :
    idxs.foldl
      (fun acc oi =>
        match oi with
        | some path =>
          match fieldByIndex row path with
          | some v => acc ++ [v]
          | none => acc
        | none => acc) args =
      args ++ idxs.filterMap (fun oi => oi.bind (fun p => fieldByIndex row p)) := by
  induction idxs generalizing args with
  | nil => simp
  | cons oi idxs ih =>
    rw [List.foldl_cons, ih]
    cases oi with
    | none => simp
    | some p =>
      cases hf : fieldByIndex row p with
      | some v => simp [hf]
      | none => simp [hf]

theorem execArgsFieldsIndexes_eq_map {t : Ty} {cols : List String}
    (hnd : cols.Nodup) :
    execArgsFieldsIndexes t cols =
      cols.map (fun c => (lastEntryNamed t c).map Entry.index) := by
  apply List.ext_getElem?
  intro i
  by_cases hi : i < cols.length
  · obtain ⟨c, hc⟩ : ∃ c, cols[i]? = some c := ⟨cols[i], by simp [hi]⟩
    have hres : execArgsFieldsIndexes t cols = resolveSlots cols (fieldsOf t) := rfl
    rw [hres, resolveSlots_getElem?_of_nodup hnd (fieldsOf t) hc,
      List.getElem?_map, hc]
    rfl
  · have h1 : (execArgsFieldsIndexes t cols).length ≤ i := by
      have hres : execArgsFieldsIndexes t cols = resolveSlots cols (fieldsOf t) := rfl
      rw [hres, resolveSlots_length]
      omega
    have h2 : (cols.map (fun c => (lastEntryNamed t c).map Entry.index)).length ≤ i := by
      rw [List.length_map]
      omega
    rw [List.getElem?_eq_none h1, List.getElem?_eq_none h2]

theorem execArgsFields_ok_all_matched {t : Ty} {cols : List String}
    (hnd : cols.Nodup) (hok : (ExecArgsFields t cols).isOk = true) :
    ∀ c ∈ cols, c ∈ (fieldsOf t).map Entry.name := by
  intro c hc
  by_contra hcm
  have hany := resolveSlots_any_isNone_of_unmapped hc hcm
  rw [execArgsFields_isOk_iff_not_any] at hok
  have hres : execArgsFieldsIndexes t cols = resolveSlots cols (fieldsOf t) := rfl
  rw [hres] at hok
  rw [hok] at hany
  cases hany

theorem execArgsFields_ok_builder {t : Ty} {cols : List String} {opt : ExecOpt}
    (h : ExecArgsFields t cols = .ok opt) (hflat : flatShape t = true)
    (args : List Value) (row : Value) (hrow : valueHasTy row t = true) :
    (∀ c ∈ cols,
      ((lastEntryNamed t c).bind (fun e => fieldByIndex row e.index)).isSome
        = true) ∧
    ((opt ⟨none, none⟩).argsFn.getD (fun a _ => a)) args row =
      args ++ cols.filterMap
        (fun c => (lastEntryNamed t c).bind (fun e => fieldByIndex row e.index)) := by
  have hok : (ExecArgsFields t cols).isOk = true := by rw [h]; rfl
  have hnd : cols.Nodup := by
    by_contra hnd
    have hfalse := @execArgsFields_not_ok_of_dup t cols hnd
    rw [hfalse] at hok
    cases hok
  have hany : (execArgsFieldsIndexes t cols).any (fun o => o.isNone) = false :=
    (execArgsFields_isOk_iff_not_any t cols).mp hok
  refine ⟨?_, ?_⟩
  · intro c hc
    obtain ⟨e, hle, hmem⟩ :=
      lastEntryNamed_mem (execArgsFields_ok_all_matched hnd hok c hc)
    rw [hle]
    simpa using flat_fieldByIndex_isSome hflat hmem hrow
  unfold ExecArgsFields at h
  rw [if_neg (by simp [hany])] at h
  injection h with h2
  rw [← h2]
  show ((execArgsFieldsIndexes t cols).foldl
    (fun acc oi =>
      match oi with
      | some path =>
        match fieldByIndex row path with
        | some v => acc ++ [v]
        | none => acc
      | none => acc) args) = _
  rw [foldl_append_filterMap, execArgsFieldsIndexes_eq_map hnd,
    List.filterMap_map]
  congr 1
  apply List.filterMap_congr
  intro c _
  cases hl : lastEntryNamed t c <;> simp [hl]

/-- C9 (amended): constructing the ExecArgsFields option panics at
construction time iff some listed position gets no match: with
duplicate-free names this happens iff some listed name matches no
annotated field of the row type, and a name listed more than once always
panics because only its first occurrence slot is ever filled. When it does
not panic, then — for a flat row shape and a row value of that shape, the
domain on which the builder's path lookups all resolve and Go's
`FieldByIndex` cannot panic — the builder resolves every listed name's
recorded path on the current row and appends, for each listed name in
listed order, the row's value at the recorded path of the (last) annotated
field bearing that name. -/
theorem execArgsFields_characterization (t : Ty) (cols : List String) :
    (¬ cols.Nodup → (ExecArgsFields t cols).isOk = false) ∧
    (cols.Nodup → ((ExecArgsFields t cols).isOk = true ↔
      ∀ c ∈ cols, c ∈ (fieldsOf t).map Entry.name)) ∧
    (∀ opt, ExecArgsFields t cols = .ok opt → flatShape t = true →
      ∀ args row, valueHasTy row t = true →
      (∀ c ∈ cols,
        ((lastEntryNamed t c).bind (fun e => fieldByIndex row e.index)).isSome
          = true) ∧
      ((opt ⟨none, none⟩).argsFn.getD (fun a _ => a)) args row =
        args ++ cols.filterMap
          (fun c => (lastEntryNamed t c).bind (fun e => fieldByIndex row e.index))) := by
  refine ⟨fun h => execArgsFields_not_ok_of_dup h, fun hnd => ⟨?_, ?_⟩,
    fun opt h hflat args row hrow =>
      execArgsFields_ok_builder h hflat args row hrow⟩
  · intro hok
    exact execArgsFields_ok_all_matched hnd hok
  · intro hall
    rw [execArgsFields_isOk_iff_not_any]
    cases hb : (execArgsFieldsIndexes t cols).any (fun o => o.isNone) with
    | false => rfl
    | true =>
      obtain ⟨x, hx, hxn⟩ := List.any_eq_true.mp hb
      have hxnone : x = none := Option.isNone_iff_eq_none.mp hxn
      subst hxnone
      obtain ⟨i, hi⟩ := List.mem_iff_getElem?.mp hx
      obtain ⟨c, hcc, hcnm⟩ := execArgsFieldsIndexes_none_unmatched hnd hi
      exact absurd (hall c hcc) hcnm

/-- Witness for C9: the package's own test usage, duplicate-free names
`name, age` against the person shape, constructs without panic. -/
theorem execArgsFields_characterization_witness :
    (ExecArgsFields personTy ["name", "age"]).isOk = true :=
  ((execArgsFields_characterization personTy ["name", "age"]).2.1 (by decide)).mpr
    (by decide)
